import Mathlib

/-!
Verification of the geecache-style distributed cache in this repository.

Shallow embedding of:
* `geecache/lru/lru.go` — the LRU eviction store (`lru` namespace);
* the `Group` orchestration (`NewGroup`, `GetGroup`, `Group.Get`, `Group.load`,
  `Group.getLocally`, `Group.getFromPeer`, `Group.populateCache`);
* `geecache/http.go` — the server half `HTTPPool.ServeHTTP`;
* a transition-system model of the request deduplicator (its source file is
  not in the repository snapshot; it is modelled from the specification).

Go byte slices are modelled as `String` (an immutable byte payload), Go's
`int64` counters as `Int` (the sizes involved are far below the overflow
bound, so wrap-around is not modelled), and fallible Go calls as `Except`.
State mutation becomes explicit state passing; the `OnEvicted` callback is
modelled by returning the list of evicted entries in eviction order.
-/

set_option autoImplicit false

namespace lru

/-- Embedding of the Go interface `Value` (`Len() int` counts bytes): a type
class providing a byte length. Lengths of real values are non-negative, so
`Nat` is used. -/
class Value (V : Type) where
  len : V → Nat

instance : Value String := ⟨String.length⟩

/-- Embedding of the struct `entry` from `lru.go`. -/
structure entry (V : Type) where
  key : String
  value : V
deriving DecidableEq, Repr

/-- Embedding of the struct `Cache` from `lru.go`.

`ll` is the doubly linked list `c.ll`, front (most recently used) first, so
Go's `c.ll.Back()` is the last element. `keys` is the domain of the Go map
`c.cache : map[string]*list.Element`; a map lookup is modelled as a key
search (`keys.contains`) followed by locating the unique list node carrying
that key. `maxBytes`/`nbytes` are the `int64` fields. -/
structure Cache (V : Type) where
  maxBytes : Int
  nbytes : Int
  ll : List (entry V)
  keys : List String
deriving DecidableEq, Repr

/-- Embedding of `lru.New` (the `OnEvicted` callback is modelled by the
evicted-entry lists returned by the operations, so it is not a field). -/
def New (V : Type) (maxBytes : Int) : Cache V :=
  { maxBytes := maxBytes, nbytes := 0, ll := [], keys := [] }

/-- Size accounting of one entry: `int64(len(kv.key)) + int64(kv.value.Len())`. -/
def entrySize {V : Type} [Value V] (e : entry V) : Int :=
  (e.key.length : Int) + (Value.len e.value : Int)

/-- Sum of `entrySize` over a list of entries. -/
def sumSizes {V : Type} [Value V] (l : List (entry V)) : Int :=
  (l.map entrySize).sum

/-- Locate the list node holding `key` and detach it, keeping the relative
order of the remaining nodes: this is how `c.cache[key]` (a `*list.Element`)
together with `c.ll.MoveToFront`/`c.ll.Remove` acts on the embedded list. -/
def extract {V : Type} (key : String) : List (entry V) → Option (entry V × List (entry V))
  | [] => none
  | e :: rest =>
    if e.key = key then some (e, rest)
    else
      match extract key rest with
      | some (f, rest2) => some (f, e :: rest2)
      | none => none

/-- Embedding of `Cache.Get`: on a map hit the node is moved to the front
and its value returned; on a miss the zero result is returned and the cache
is unchanged. -/
def Cache.get {V : Type} (c : Cache V) (key : String) : Option V × Cache V :=
  if c.keys.contains key then
    match extract key c.ll with
    | some (e, rest) => (some e.value, { c with ll := e :: rest })
    | none => (none, c)
  else (none, c)

/-- Embedding of `Cache.RemoveOldest`: take `c.ll.Back()`; if present,
remove it from the list, delete its key from the map, subtract its size,
and report it (the `OnEvicted` callback argument). -/
def Cache.removeOldest {V : Type} [Value V] (c : Cache V) : Cache V × Option (entry V) :=
  match c.ll.reverse with
  | [] => (c, none)
  | e :: restRev =>
    ({ c with ll := restRev.reverse,
              keys := c.keys.erase e.key,
              nbytes := c.nbytes - entrySize e }, some e)

/-- The eviction loop `for c.maxBytes != 0 && c.maxBytes < c.nbytes`,
unrolled on explicit fuel; `Cache.add` supplies fuel `c.ll.length`, enough
for every iteration the Go loop can perform (each iteration removes one
list node; once the list is empty the Go loop makes no further progress).
The evicted entries are accumulated in order of eviction. -/
def evictLoop {V : Type} [Value V] : Nat → Cache V → List (entry V) → Cache V × List (entry V)
  | 0, c, acc => (c, acc.reverse)
  | fuel + 1, c, acc =>
    if c.maxBytes ≠ 0 ∧ c.maxBytes < c.nbytes then
      match c.removeOldest with
      | (c2, some e) => evictLoop fuel c2 (e :: acc)
      | (c2, none) => (c2, acc.reverse)
    else (c, acc.reverse)

/-- Embedding of `Cache.Add`: update-in-place (move to front, apply the size
delta) when the key is resident, otherwise push a new front node and account
its size; then run the eviction loop. Returns the new cache and the entries
handed to `OnEvicted`, in eviction order. -/
def Cache.add {V : Type} [Value V] (c : Cache V) (key : String) (value : V) :
    Cache V × List (entry V) :=
  let c1 :=
    if c.keys.contains key then
      match extract key c.ll with
      | some (e, rest) =>
        { c with ll := { key := e.key, value := value } :: rest,
                 nbytes := c.nbytes + (Value.len value : Int) - (Value.len e.value : Int) }
      | none => c
    else
      { c with ll := { key := key, value := value } :: c.ll,
               keys := key :: c.keys,
               nbytes := c.nbytes + ((key.length : Int) + (Value.len value : Int)) }
  evictLoop c1.ll.length c1 []

/-- Embedding of `Cache.Len`. -/
def Cache.len {V : Type} (c : Cache V) : Nat := c.ll.length

/-- Apply a whole sequence of `Add` operations, collecting every evicted
entry. -/
def addAll {V : Type} [Value V] (c : Cache V) : List (String × V) → Cache V × List (entry V)
  | [] => (c, [])
  | (k, v) :: rest =>
    let p := c.add k v
    let q := addAll p.1 rest
    (q.1, p.2 ++ q.2)

/-- One public operation of the eviction store. -/
inductive Op (V : Type) where
  | get (key : String)
  | add (key : String) (value : V)
  | removeOldest
deriving DecidableEq, Repr

/-- Run one operation, keeping only the cache state. -/
def applyOp {V : Type} [Value V] (c : Cache V) : Op V → Cache V
  | Op.get k => (c.get k).2
  | Op.add k v => (c.add k v).1
  | Op.removeOldest => c.removeOldest.1

/-- Run a sequence of operations. -/
def applyOps {V : Type} [Value V] (c : Cache V) (ops : List (Op V)) : Cache V :=
  ops.foldl applyOp c

/-- The size-accounting invariant: the tracked byte count is the sum of the
sizes of the resident entries. -/
def sizeInv {V : Type} [Value V] (c : Cache V) : Prop :=
  c.nbytes = sumSizes c.ll

/-- Structural well-formedness tying the map to the list: no duplicate keys
on either side, and both hold exactly the same key set. -/
def WF {V : Type} (c : Cache V) : Prop :=
  c.keys.Nodup ∧ (c.ll.map entry.key).Nodup ∧
    ∀ k, k ∈ c.keys ↔ k ∈ c.ll.map entry.key

end lru

namespace geecache

/-- Modelled from the spec: the byte-view wrapper (its source file is not in
the repository snapshot) — "value (immutable byte payload plus its byte
length for size accounting)". The payload `b` models the Go `[]byte`. -/
structure ByteView where
  b : String
deriving DecidableEq, Repr

/-- Byte length of a view, `ByteView.Len`. -/
def ByteView.viewLen (v : ByteView) : Nat := v.b.length

instance : lru.Value ByteView := ⟨ByteView.viewLen⟩

/-- Modelled from the spec: `cloneBytes` copies the loader's byte slice
before it is cached ("copy-on-read is explicitly required"); on the
immutable `String` model a copy has the same contents, so it is the
identity. -/
def cloneBytes (b : String) : String := b

/-- Modelled from the spec: the byte slice returned to transport callers
(`ByteView.ByteSlice`). -/
def ByteView.byteSlice (v : ByteView) : String := v.b

/-- Embedding of the Go interface `PeerGetter` (`Get(group, key) ([]byte, error)`). -/
def PeerGetter : Type := String → String → Except String String

/-- Embedding of the Go interface `PeerPicker` (`PickPeer(key) (PeerGetter, bool)`). -/
def PeerPicker : Type := String → Option PeerGetter

/-- Embedding of the struct `Group`. The user loader `Getter.Get` is a
function from a key to bytes or an error; `mainCache` is the group's
eviction store (the mutex-guarded `cache` wrapper is modelled from the
spec, §5: accesses are serialized, so sequentially it is the store itself,
created with capacity `cacheBytes`). The request deduplicator `loader`
carries no sequentially observable state, so it is not a field. -/
structure Group where
  name : String
  getter : String → Except String String
  mainCache : lru.Cache ByteView
  peers : Option PeerPicker

/-- Observable side-effect counters for one `Group.Get` call: how many times
the user loader ran, how many remote peer fetches were issued, and how many
times the request deduplicator's `Do` was entered. -/
structure Stats where
  loaderCalls : Nat
  peerCalls : Nat
  doCalls : Nat
deriving DecidableEq, Repr

/-- Modelled from the spec: the request deduplicator's `Do` as seen by one
sequential caller (its source file is not in the repository snapshot) —
"if no call for `key` is currently in flight, register one, synchronously
execute `fn`, record its single result/error, …, remove the in-flight
record, and return the result". With a single caller nothing is ever in
flight, so `Do` executes `fn` once; its concurrent behaviour is modelled
separately by the `sflight` transition system below. -/
def doSequential {α : Type} (fn : Unit → α) : α := fn ()

/-- Embedding of `Group.getFromPeer`: fetch bytes from the chosen peer and
wrap them (note: without cloning) into a view. -/
def Group.getFromPeer (g : Group) (peer : PeerGetter) (key : String) :
    Except String ByteView :=
  match peer g.name key with
  | Except.ok bytes => Except.ok { b := bytes }
  | Except.error e => Except.error e

/-- Embedding of `Group.populateCache`: insert into the eviction store
(the wrapper was created without an eviction callback, so the evicted
entries are discarded). -/
def Group.populateCache (g : Group) (key : String) (value : ByteView) : Group :=
  { g with mainCache := (g.mainCache.add key value).1 }

/-- Embedding of `Group.getLocally`: run the user loader; on success clone
the bytes, cache the view, and return it; on failure propagate the error
verbatim and leave the store untouched. -/
def Group.getLocally (g : Group) (key : String) : Except String ByteView × Group :=
  match g.getter key with
  | Except.error e => (Except.error e, g)
  | Except.ok bytes =>
    let value : ByteView := { b := cloneBytes bytes }
    (Except.ok value, g.populateCache key value)

/-- The function literal passed by `Group.load` to the deduplicator: if a
peer picker is registered and nominates a remote peer, try the remote fetch
and return its value on success; on remote failure (after logging) or when
no peer is nominated, fall through to the local loader. -/
def Group.loadBody (g : Group) (key : String) : Except String ByteView × Group × Stats :=
  match g.peers with
  | some picker =>
    match picker key with
    | some peer =>
      match g.getFromPeer peer key with
      | Except.ok value => (Except.ok value, g, ⟨0, 1, 1⟩)
      | Except.error _ =>
        let p := g.getLocally key
        (p.1, p.2, ⟨1, 1, 1⟩)
    | none =>
      let p := g.getLocally key
      (p.1, p.2, ⟨1, 0, 1⟩)
  | none =>
    let p := g.getLocally key
    (p.1, p.2, ⟨1, 0, 1⟩)

/-- Embedding of `Group.load`: run the load body under the deduplicator's
`Do`; on success the view is returned, on failure the error. -/
def Group.load (g : Group) (key : String) : Except String ByteView × Group × Stats :=
  doSequential (fun _ => g.loadBody key)

/-- Embedding of `Group.Get`: reject the empty key with a validation error
before any lookup; otherwise consult the eviction store (a hit refreshes the
recency order) and on a miss delegate to `load`. -/
def Group.Get (g : Group) (key : String) : Except String ByteView × Group × Stats :=
  if key = "" then (Except.error "key is required", g, ⟨0, 0, 0⟩)
  else
    match g.mainCache.get key with
    | (some v, c2) => (Except.ok v, { g with mainCache := c2 }, ⟨0, 0, 0⟩)
    | (none, c2) => Group.load { g with mainCache := c2 } key

/-- The package-level registry `groups : map[string]*Group`, modelled as a
lookup function (the `sync.RWMutex` serializes access; sequentially the map
is the state). -/
def Registry : Type := String → Option Group

/-- Embedding of `NewGroup`: build the group (empty store of capacity
`cacheBytes`, no peers yet) and store it in the registry under `name`,
replacing any previous entry as a Go map assignment does. The nil-getter
panic cannot arise here because the getter argument is a total function. -/
def NewGroup (reg : Registry) (name : String) (cacheBytes : Int)
    (getter : String → Except String String) : Registry × Group :=
  let g : Group :=
    { name := name, getter := getter,
      mainCache := lru.New ByteView cacheBytes, peers := none }
  (fun n => if n = name then some g else reg n, g)

/-- Embedding of `GetGroup`: registry lookup. -/
def GetGroup (reg : Registry) (name : String) : Option Group := reg name

/-- Embedding of `Group.RegisterPeers`: bind the picker once; a second call
is the Go panic, modelled as `none`. -/
def Group.registerPeers (g : Group) (p : PeerPicker) : Option Group :=
  match g.peers with
  | some _ => none
  | none => some { g with peers := some p }

/-- Outcome of one inbound request on the server half: either the handler
panicked or it wrote a status and a body (for the success path also the
content type). The body is the message handed to `http.Error`, or the raw
value bytes on success. -/
inductive HTTPResult where
  | panicked (msg : String)
  | response (status : Nat) (contentType : Option String) (body : String)
deriving DecidableEq, Repr

/-- Go's `strings.HasPrefix`, over the character sequence of the string
(URL paths here are ASCII, where characters and bytes coincide). -/
def goHasPrefix (s pre : String) : Bool :=
  pre.data.isPrefixOf s.data

/-- Go's `s[n:]` (drop the first `n` characters), over the character
sequence of the string. -/
def goDrop (s : String) (n : Nat) : String :=
  { data := s.data.drop n }

/-- Split a character sequence at its first '/', when it has one. -/
def splitFirstSlash : List Char → Option (List Char × List Char)
  | [] => none
  | c :: rest =>
    if c = '/' then some ([], rest)
    else
      match splitFirstSlash rest with
      | some (a, b) => some (c :: a, b)
      | none => none

/-- Go's `strings.SplitN(s, "/", 2)`: at most two pieces, split at the first
separator; the second piece keeps any further separators. -/
def splitN2 (s : String) : List String :=
  match splitFirstSlash s.data with
  | none => [s]
  | some (a, b) => [{ data := a }, { data := b }]

/-- Embedding of `HTTPPool.ServeHTTP`: panic on a path outside `basePath`;
split the remainder into exactly two segments or answer 400 "bad request";
unknown group answers 404 with the (as written in the source) body
"no suck group: " + name; a load error answers 500 with the error text;
otherwise 200 with the value bytes as an octet stream. -/
def ServeHTTP (reg : Registry) (basePath : String) (path : String) : HTTPResult :=
  if ¬ goHasPrefix path basePath then
    HTTPResult.panicked ("HTTPPool serving unexpected path: " ++ path)
  else
    match splitN2 (goDrop path basePath.length) with
    | [groupName, key] =>
      match GetGroup reg groupName with
      | none => HTTPResult.response 404 none ("no suck group: " ++ groupName)
      | some group =>
        match (group.Get key).1 with
        | Except.error e => HTTPResult.response 500 none e
        | Except.ok view =>
          HTTPResult.response 200 (some "application/octet-stream") view.byteSlice
    | _ => HTTPResult.response 400 none "bad request"

/-- The default peer base path from `http.go`. -/
def defaultBasePath : String := "/_geecache/"

end geecache

namespace sflight

/-- Modelled from the spec: one event in the life of the deduplicator for a
single hot key — a caller arrives wanting the key, or the in-flight
execution completes with a result. -/
inductive Event (α : Type) where
  | arrive (caller : Nat)
  | complete (result : α)

/-- Modelled from the spec: deduplicator state for one key. `inflight` is
the in-flight call record with its subscribed waiters (absent when no call
is in flight), `execs` counts how many times the load function was started,
and `delivered` records which caller received which result. -/
structure State (α : Type) where
  inflight : Option (List Nat)
  execs : Nat
  delivered : List (Nat × α)

/-- Modelled from the spec: the initial deduplicator state — empty in-flight
table, no executions, nothing delivered. -/
def init (α : Type) : State α := { inflight := none, execs := 0, delivered := [] }

/-- Modelled from the spec, §4.3: an arriving caller joins the in-flight
record and blocks if one exists (the function is not re-executed), otherwise
registers a fresh record and starts the single execution; completion
broadcasts the one result to every waiter and removes the record. -/
def step {α : Type} (s : State α) : Event α → State α
  | Event.arrive c =>
    match s.inflight with
    | some ws => { s with inflight := some (c :: ws) }
    | none => { s with inflight := some [c], execs := s.execs + 1 }
  | Event.complete r =>
    match s.inflight with
    | some ws =>
      { s with inflight := none,
               delivered := s.delivered ++ ws.map (fun c => (c, r)) }
    | none => s

/-- Run a whole event trace. -/
def run {α : Type} (s : State α) (evs : List (Event α)) : State α :=
  evs.foldl step s

end sflight

namespace lru

theorem extract_eq_key {V : Type} {key : String} {l : List (entry V)} {e : entry V}
    {r : List (entry V)} (h : extract key l = some (e, r)) : e.key = key := by
  induction l generalizing e r with
  | nil => simp [extract] at h
  | cons a rest ih =>
    simp only [extract] at h
    split at h
    · next hk => cases h; exact hk
    · split at h
      · next f rest2 hrest => cases h; exact ih hrest
      · cases h

theorem extract_perm {V : Type} {key : String} {l : List (entry V)} {e : entry V}
    {r : List (entry V)} (h : extract key l = some (e, r)) : l.Perm (e :: r) := by
  induction l generalizing e r with
  | nil => simp [extract] at h
  | cons a rest ih =>
    simp only [extract] at h
    split at h
    · cases h; exact List.Perm.refl _
    · split at h
      · next f rest2 hrest =>
        cases h
        exact ((ih hrest).cons a).trans (List.Perm.swap e a _)
      · cases h

theorem extract_isSome_of_mem {V : Type} {key : String} {l : List (entry V)}
    (h : key ∈ l.map entry.key) : (extract key l).isSome := by
  induction l with
  | nil => simp at h
  | cons a rest ih =>
    by_cases hk : a.key = key
    · simp [extract, hk]
    · simp only [List.map_cons, List.mem_cons] at h
      rcases h with h | h
      · exact absurd h.symm hk
      · have := ih h
        simp only [extract, if_neg hk]
        cases hr : extract key rest with
        | none => rw [hr] at this; simp at this
        | some p => cases p; simp

theorem sumSizes_nil {V : Type} [Value V] : sumSizes ([] : List (entry V)) = 0 := rfl

theorem sumSizes_cons {V : Type} [Value V] (e : entry V) (l : List (entry V)) :
    sumSizes (e :: l) = entrySize e + sumSizes l := by
  simp [sumSizes]

theorem sumSizes_append {V : Type} [Value V] (l1 l2 : List (entry V)) :
    sumSizes (l1 ++ l2) = sumSizes l1 + sumSizes l2 := by
  simp [sumSizes]

theorem sumSizes_of_perm {V : Type} [Value V] {l1 l2 : List (entry V)} (h : l1.Perm l2) :
    sumSizes l1 = sumSizes l2 :=
  List.Perm.sum_eq (h.map entrySize)

theorem removeOldest_eq_of_rev_nil {V : Type} [Value V] {c : Cache V}
    (h : c.ll.reverse = []) : c.removeOldest = (c, none) := by
  unfold Cache.removeOldest
  rw [h]

theorem removeOldest_eq_of_rev_cons {V : Type} [Value V] {c : Cache V} {e : entry V}
    {restRev : List (entry V)} (h : c.ll.reverse = e :: restRev) :
    c.removeOldest =
      ({ c with ll := restRev.reverse,
                keys := c.keys.erase e.key,
                nbytes := c.nbytes - entrySize e }, some e) := by
  unfold Cache.removeOldest
  rw [h]

theorem ll_eq_of_rev_cons {V : Type} {c : Cache V} {e : entry V}
    {restRev : List (entry V)} (h : c.ll.reverse = e :: restRev) :
    c.ll = restRev.reverse ++ [e] := by
  have := congrArg List.reverse h
  rw [List.reverse_reverse] at this
  rw [this, List.reverse_cons]

theorem removeOldest_sizeInv {V : Type} [Value V] {c : Cache V} (h : sizeInv c) :
    sizeInv c.removeOldest.1 := by
  cases hrev : c.ll.reverse with
  | nil => rw [removeOldest_eq_of_rev_nil hrev]; exact h
  | cons e restRev =>
    rw [removeOldest_eq_of_rev_cons hrev]
    have hll := ll_eq_of_rev_cons hrev
    unfold sizeInv at h ⊢
    rw [hll, sumSizes_append, sumSizes_cons, sumSizes_nil] at h
    simp only
    omega

theorem removeOldest_maxBytes {V : Type} [Value V] (c : Cache V) :
    c.removeOldest.1.maxBytes = c.maxBytes := by
  cases hrev : c.ll.reverse with
  | nil => rw [removeOldest_eq_of_rev_nil hrev]
  | cons e restRev => rw [removeOldest_eq_of_rev_cons hrev]

theorem removeOldest_length {V : Type} [Value V] {c : Cache V} {e : entry V}
    {restRev : List (entry V)} (h : c.ll.reverse = e :: restRev) :
    c.removeOldest.1.ll.length + 1 = c.ll.length := by
  rw [removeOldest_eq_of_rev_cons h]
  have hll := ll_eq_of_rev_cons h
  simp [hll]

theorem evictLoop_spec {V : Type} [Value V] (fuel : Nat) :
    ∀ (c : Cache V) (acc : List (entry V)), sizeInv c → c.ll.length ≤ fuel →
      sizeInv (evictLoop fuel c acc).1 ∧
      (evictLoop fuel c acc).1.maxBytes = c.maxBytes ∧
      (0 < c.maxBytes → (evictLoop fuel c acc).1.nbytes ≤ c.maxBytes) := by
  induction fuel with
  | zero =>
    intro c acc hinv hlen
    have hnil : c.ll = [] := List.eq_nil_of_length_eq_zero (Nat.le_zero.mp hlen)
    have hzero : c.nbytes = 0 := by rw [hinv, hnil]; rfl
    refine ⟨hinv, rfl, fun hpos => ?_⟩
    show c.nbytes ≤ c.maxBytes
    rw [hzero]
    exact Int.le_of_lt hpos
  | succ n ih =>
    intro c acc hinv hlen
    by_cases hc : c.maxBytes ≠ 0 ∧ c.maxBytes < c.nbytes
    · cases hrev : c.ll.reverse with
      | nil =>
        have hnil : c.ll = [] := by
          have := congrArg List.reverse hrev
          rwa [List.reverse_reverse] at this
        have hzero : c.nbytes = 0 := by rw [hinv, hnil]; rfl
        simp only [evictLoop, if_pos hc, removeOldest_eq_of_rev_nil hrev]
        refine ⟨hinv, trivial, fun hpos => ?_⟩
        exact absurd (hzero ▸ hc.2) (Int.not_lt.mpr (Int.le_of_lt hpos))
      | cons e restRev =>
        have hro := removeOldest_eq_of_rev_cons hrev
        have hinv2 : sizeInv c.removeOldest.1 := removeOldest_sizeInv hinv
        have hmax : c.removeOldest.1.maxBytes = c.maxBytes := removeOldest_maxBytes c
        have hlen2 : c.removeOldest.1.ll.length ≤ n := by
          have := removeOldest_length (c := c) hrev
          omega
        simp only [evictLoop, if_pos hc, hro]
        have hres := ih c.removeOldest.1 (e :: acc) hinv2 hlen2
        rw [hro] at hres hmax
        exact ⟨hres.1, hres.2.1.trans hmax, fun hpos => by
          have := hres.2.2 (hmax ▸ hpos)
          rwa [hmax] at this⟩
    · simp only [evictLoop, if_neg hc]
      refine ⟨hinv, trivial, fun hpos => ?_⟩
      rcases Decidable.not_and_iff_or_not.mp hc with h1 | h2
      · exact absurd (Int.ne_of_gt hpos) (by simpa using h1)
      · exact Int.not_lt.mp h2

theorem evictLoop_unbounded {V : Type} [Value V] (fuel : Nat) (c : Cache V)
    (acc : List (entry V)) (h : c.maxBytes = 0) :
    evictLoop fuel c acc = (c, acc.reverse) := by
  cases fuel with
  | zero => rfl
  | succ n =>
    have hc : ¬ (c.maxBytes ≠ 0 ∧ c.maxBytes < c.nbytes) := by
      intro hcon
      exact hcon.1 h
    simp only [evictLoop, if_neg hc]

theorem add_spec {V : Type} [Value V] (c : Cache V) (k : String) (v : V)
    (h : sizeInv c) :
    sizeInv (c.add k v).1 ∧ (c.add k v).1.maxBytes = c.maxBytes ∧
      (0 < c.maxBytes → (c.add k v).1.nbytes ≤ c.maxBytes) := by
  unfold Cache.add
  by_cases hk : c.keys.contains k
  · simp only [if_pos hk]
    cases hx : extract k c.ll with
    | none =>
      simp only
      exact evictLoop_spec _ c [] h (Nat.le_refl _)
    | some p =>
      obtain ⟨e, rest⟩ := p
      simp only
      have hperm := extract_perm hx
      have hsum : sumSizes c.ll = entrySize e + sumSizes rest := by
        rw [sumSizes_of_perm hperm, sumSizes_cons]
      have hinv2 : sizeInv
          { c with ll := { key := e.key, value := v } :: rest,
                   nbytes := c.nbytes + (Value.len v : Int) - (Value.len e.value : Int) } := by
        unfold sizeInv at h ⊢
        simp only [sumSizes_cons]
        unfold entrySize at hsum ⊢
        simp only
        omega
      exact evictLoop_spec _ _ [] hinv2 (Nat.le_refl _)
  · simp only [if_neg hk]
    have hinv2 : sizeInv
        { c with ll := { key := k, value := v } :: c.ll,
                 keys := k :: c.keys,
                 nbytes := c.nbytes + ((k.length : Int) + (Value.len v : Int)) } := by
      unfold sizeInv at h ⊢
      simp only [sumSizes_cons]
      unfold entrySize
      simp only
      omega
    exact evictLoop_spec _ _ [] hinv2 (Nat.le_refl _)

theorem evictLoop_maxBytes_aux {V : Type} [Value V] (fuel : Nat) :
    ∀ (c : Cache V) (acc : List (entry V)), (evictLoop fuel c acc).1.maxBytes = c.maxBytes := by
  induction fuel with
  | zero => intro c acc; rfl
  | succ n ih =>
    intro c acc
    by_cases hc : c.maxBytes ≠ 0 ∧ c.maxBytes < c.nbytes
    · cases hrev : c.ll.reverse with
      | nil => simp only [evictLoop, if_pos hc, removeOldest_eq_of_rev_nil hrev]
      | cons e restRev =>
        have hro := removeOldest_eq_of_rev_cons hrev
        have hmax : c.removeOldest.1.maxBytes = c.maxBytes := removeOldest_maxBytes c
        simp only [evictLoop, if_pos hc, hro]
        rw [hro] at hmax
        exact (ih _ _).trans hmax
    · simp only [evictLoop, if_neg hc]

theorem add_maxBytes {V : Type} [Value V] (c : Cache V) (k : String) (v : V) :
    (c.add k v).1.maxBytes = c.maxBytes := by
  unfold Cache.add
  by_cases hk : c.keys.contains k
  · simp only [if_pos hk]
    cases hx : extract k c.ll with
    | none => exact evictLoop_maxBytes_aux _ _ _
    | some p =>
      obtain ⟨e, rest⟩ := p
      exact evictLoop_maxBytes_aux _ _ _
  · simp only [if_neg hk]
    exact evictLoop_maxBytes_aux _ _ _

theorem evictLoop_snd_unbounded {V : Type} [Value V] (fuel : Nat) (c : Cache V)
    (h : c.maxBytes = 0) : (evictLoop fuel c []).2 = [] := by
  rw [evictLoop_unbounded _ _ _ h]
  rfl

theorem add_unbounded_no_evict {V : Type} [Value V] {c : Cache V} (h : c.maxBytes = 0)
    (k : String) (v : V) : (c.add k v).2 = [] := by
  unfold Cache.add
  by_cases hk : c.keys.contains k
  · simp only [if_pos hk]
    cases hx : extract k c.ll with
    | none => exact evictLoop_snd_unbounded _ _ h
    | some p =>
      obtain ⟨e, rest⟩ := p
      simp only
      exact evictLoop_snd_unbounded _ _ h
  · simp only [if_neg hk]
    exact evictLoop_snd_unbounded _ _ h

theorem get_WF {V : Type} {c : Cache V} (h : WF c) (key : String) : WF (c.get key).2 := by
  unfold Cache.get
  by_cases hk : c.keys.contains key
  · simp only [if_pos hk]
    cases hx : extract key c.ll with
    | none => exact h
    | some p =>
      obtain ⟨e, rest⟩ := p
      simp only
      have hmap := (extract_perm hx).map entry.key
      obtain ⟨h1, h2, h3⟩ := h
      exact ⟨h1, hmap.nodup_iff.mp h2, fun k => (h3 k).trans hmap.mem_iff⟩
  · simp only [if_neg hk]
    exact h

theorem removeOldest_WF {V : Type} [Value V] {c : Cache V} (h : WF c) :
    WF c.removeOldest.1 := by
  cases hrev : c.ll.reverse with
  | nil => rw [removeOldest_eq_of_rev_nil hrev]; exact h
  | cons e restRev =>
    rw [removeOldest_eq_of_rev_cons hrev]
    have hll := ll_eq_of_rev_cons hrev
    obtain ⟨h1, h2, h3⟩ := h
    rw [hll] at h2 h3
    rw [List.map_append, List.map_cons, List.map_nil] at h2
    have h2' := List.nodup_append.mp h2
    have henot : e.key ∉ restRev.reverse.map entry.key := by
      intro hmem
      exact (h2'.2.2 hmem) (List.mem_singleton.mpr rfl)
    refine ⟨h1.erase e.key, h2'.1, fun k => ?_⟩
    rw [h1.mem_erase_iff]
    rw [h3 k, List.map_append, List.map_cons, List.map_nil, List.mem_append,
      List.mem_singleton]
    constructor
    · rintro ⟨hne, hmem | heq⟩
      · exact hmem
      · exact absurd heq hne
    · intro hmem
      refine ⟨fun heq => henot (heq ▸ hmem), Or.inl hmem⟩

theorem evictLoop_WF {V : Type} [Value V] (fuel : Nat) :
    ∀ (c : Cache V) (acc : List (entry V)), WF c → WF (evictLoop fuel c acc).1 := by
  induction fuel with
  | zero => intro c acc h; exact h
  | succ n ih =>
    intro c acc h
    by_cases hc : c.maxBytes ≠ 0 ∧ c.maxBytes < c.nbytes
    · cases hrev : c.ll.reverse with
      | nil =>
        simp only [evictLoop, if_pos hc, removeOldest_eq_of_rev_nil hrev]
        exact h
      | cons e restRev =>
        have hro := removeOldest_eq_of_rev_cons hrev
        have hwf2 : WF c.removeOldest.1 := removeOldest_WF h
        simp only [evictLoop, if_pos hc, hro]
        rw [hro] at hwf2
        exact ih _ _ hwf2
    · simp only [evictLoop, if_neg hc]
      exact h

theorem add_WF {V : Type} [Value V] {c : Cache V} (h : WF c) (k : String) (v : V) :
    WF (c.add k v).1 := by
  unfold Cache.add
  by_cases hk : c.keys.contains k
  · simp only [if_pos hk]
    cases hx : extract k c.ll with
    | none => exact evictLoop_WF _ _ _ h
    | some p =>
      obtain ⟨e, rest⟩ := p
      simp only
      refine evictLoop_WF _ _ _ ?_
      have hmap := (extract_perm hx).map entry.key
      obtain ⟨h1, h2, h3⟩ := h
      refine ⟨h1, ?_, fun k2 => ?_⟩
      · have : ((entry.mk e.key v :: rest).map entry.key) = (e :: rest).map entry.key := by
          simp
        rw [this]
        exact hmap.nodup_iff.mp h2
      · have : ((entry.mk e.key v :: rest).map entry.key) = (e :: rest).map entry.key := by
          simp
        rw [this]
        exact (h3 k2).trans hmap.mem_iff
  · simp only [if_neg hk]
    refine evictLoop_WF _ _ _ ?_
    have hknot : k ∉ c.keys := by
      intro hmem
      exact hk (List.elem_iff.mpr hmem)
    obtain ⟨h1, h2, h3⟩ := h
    have hknot2 : k ∉ c.ll.map entry.key := fun hmem => hknot ((h3 k).mpr hmem)
    refine ⟨List.nodup_cons.mpr ⟨hknot, h1⟩, ?_, fun k2 => ?_⟩
    · rw [List.map_cons]
      exact List.nodup_cons.mpr ⟨hknot2, h2⟩
    · rw [List.map_cons]
      simp only [List.mem_cons]
      constructor
      · rintro (heq | hmem)
        · exact Or.inl heq
        · exact Or.inr ((h3 k2).mp hmem)
      · rintro (heq | hmem)
        · exact Or.inl heq
        · exact Or.inr ((h3 k2).mpr hmem)

theorem applyOp_WF {V : Type} [Value V] {c : Cache V} (h : WF c) (op : Op V) :
    WF (applyOp c op) := by
  cases op with
  | get k => exact get_WF h k
  | add k v => exact add_WF h k v
  | removeOldest => exact removeOldest_WF h

theorem applyOps_WF {V : Type} [Value V] (ops : List (Op V)) :
    ∀ {c : Cache V}, WF c → WF (applyOps c ops) := by
  induction ops with
  | nil => intro c h; exact h
  | cons op rest ih =>
    intro c h
    exact ih (applyOp_WF h op)

theorem New_WF {V : Type} (maxBytes : Int) : WF (New V maxBytes) := by
  refine ⟨List.nodup_nil, List.nodup_nil, fun k => ?_⟩
  simp [New]

theorem addAll_spec {V : Type} [Value V] (ops : List (String × V)) :
    ∀ c : Cache V, sizeInv c → (0 < c.maxBytes → c.nbytes ≤ c.maxBytes) →
      sizeInv (addAll c ops).1 ∧ (addAll c ops).1.maxBytes = c.maxBytes ∧
      (0 < c.maxBytes → (addAll c ops).1.nbytes ≤ c.maxBytes) := by
  induction ops with
  | nil => intro c h hb; exact ⟨h, rfl, hb⟩
  | cons p rest ih =>
    intro c h hb
    obtain ⟨k, v⟩ := p
    simp only [addAll]
    have ha := add_spec c k v h
    have hmax := ha.2.1
    have hrec := ih (c.add k v).1 ha.1 (fun hp => by
      rw [hmax]
      exact ha.2.2 (hmax ▸ hp))
    refine ⟨hrec.1, hrec.2.1.trans hmax, fun hp => ?_⟩
    have := hrec.2.2 (by rw [hmax]; exact hp)
    rwa [hmax] at this

theorem addAll_unbounded {V : Type} [Value V] (ops : List (String × V)) :
    ∀ c : Cache V, c.maxBytes = 0 → (addAll c ops).2 = [] := by
  induction ops with
  | nil => intro c h; rfl
  | cons p rest ih =>
    intro c h
    obtain ⟨k, v⟩ := p
    simp only [addAll]
    rw [add_unbounded_no_evict h k v, ih (c.add k v).1 (by rw [add_maxBytes]; exact h)]
    rfl

end lru

/-- Claim C1: for every sequence of Add operations on an eviction store with
configured capacity, the tracked total size `nbytes` equals the sum of
(key length + value length) over the currently-resident entries, and when
`maxBytes > 0` it never exceeds `maxBytes` (every prefix of a sequence is
itself a sequence, so this bounds the size after each individual Add); when
`maxBytes = 0` the store is unbounded and no eviction ever occurs. -/
theorem claim_C1_capacity_and_size_accounting {V : Type} [lru.Value V] (maxBytes : Int)
    (ops : List (String × V)) :
    (lru.addAll (lru.New V maxBytes) ops).1.nbytes
        = lru.sumSizes (lru.addAll (lru.New V maxBytes) ops).1.ll ∧
    (0 < maxBytes → (lru.addAll (lru.New V maxBytes) ops).1.nbytes ≤ maxBytes) ∧
    (maxBytes = 0 → (lru.addAll (lru.New V maxBytes) ops).2 = []) := by
  have h := lru.addAll_spec ops (lru.New V maxBytes) rfl
    (fun hp => Int.le_of_lt hp)
  exact ⟨h.1, h.2.2, fun h0 => lru.addAll_unbounded ops _ h0⟩

/-- Witness for claim C1 at concrete inputs: capacity 10 with two adds stays
within bound, and capacity 0 evicts nothing. -/
theorem claim_C1_witness :
    (lru.addAll (lru.New String 10) [("key", "value"), ("a", "bc")]).1.nbytes ≤ 10 ∧
    (lru.addAll (lru.New String 0) [("key", "value"), ("a", "bc")]).2 = [] :=
  ⟨(claim_C1_capacity_and_size_accounting 10 [("key", "value"), ("a", "bc")]).2.1
      (by decide),
   (claim_C1_capacity_and_size_accounting 0 [("key", "value"), ("a", "bc")]).2.2 rfl⟩

/-- Claim C2: with entries a, b, c added in that order (each entry 2 bytes,
capacity 6), then key a read via Get, the Add of d pushes the size to 8 and
the triggered eviction removes exactly b — not a or c: the Get had moved a
to the front of the recency list, so the back-most entry, which eviction
removes, was b; d, a, c remain resident in recency order. -/
theorem claim_C2_lru_eviction_order :
    (((lru.addAll (lru.New String 6)
        [("a", "1"), ("b", "2"), ("c", "3")]).1.get "a").1 = some "1") ∧
    ((lru.addAll (lru.New String 6)
        [("a", "1"), ("b", "2"), ("c", "3")]).1.get "a").2.ll.map lru.entry.key
      = ["a", "c", "b"] ∧
    (((lru.addAll (lru.New String 6)
        [("a", "1"), ("b", "2"), ("c", "3")]).1.get "a").2.add "d" "4").2
      = [{ key := "b", value := "2" }] ∧
    (((lru.addAll (lru.New String 6)
        [("a", "1"), ("b", "2"), ("c", "3")]).1.get "a").2.add "d" "4").1.ll.map
        lru.entry.key
      = ["d", "a", "c"] := by
  decide

/-- Claim C7: after every sequence of eviction-store operations (Get, Add,
RemoveOldest) starting from a fresh store, the recency list and the key
index map contain exactly the same set of keys. -/
theorem claim_C7_map_and_list_same_keys {V : Type} [lru.Value V] (maxBytes : Int)
    (ops : List (lru.Op V)) (k : String) :
    k ∈ (lru.applyOps (lru.New V maxBytes) ops).keys
      ↔ k ∈ (lru.applyOps (lru.New V maxBytes) ops).ll.map lru.entry.key :=
  (lru.applyOps_WF ops (lru.New_WF maxBytes)).2.2 k

/-- Claim C10: adding a single entry whose size alone exceeds a positive
capacity succeeds but immediately evicts that very entry (the eviction
callback receives it), leaving the store empty with zero tracked size, so a
Get for that key right after the Add misses. -/
theorem claim_C10_oversized_add_self_evicts {V : Type} [lru.Value V] (maxBytes : Int)
    (key : String) (v : V) (hpos : 0 < maxBytes)
    (hbig : maxBytes < (key.length : Int) + (lru.Value.len v : Int)) :
    ((lru.New V maxBytes).add key v).2 = [{ key := key, value := v }] ∧
    ((lru.New V maxBytes).add key v).1.ll = [] ∧
    ((lru.New V maxBytes).add key v).1.keys = [] ∧
    ((lru.New V maxBytes).add key v).1.nbytes = 0 ∧
    (((lru.New V maxBytes).add key v).1.get key).1 = none := by
  have hcond : maxBytes ≠ 0 ∧
      maxBytes < 0 + ((key.length : Int) + (lru.Value.len v : Int)) :=
    ⟨ne_of_gt hpos, by omega⟩
  have hadd : (lru.New V maxBytes).add key v
      = ({ maxBytes := maxBytes,
           nbytes := 0 + ((key.length : Int) + (lru.Value.len v : Int))
                       - lru.entrySize { key := key, value := v },
           ll := [], keys := ([key].erase key : List String) },
         [{ key := key, value := v }]) := by
    show lru.evictLoop 1
        { maxBytes := maxBytes,
          nbytes := 0 + ((key.length : Int) + (lru.Value.len v : Int)),
          ll := [{ key := key, value := v }], keys := [key] } [] = _
    unfold lru.evictLoop
    rw [if_pos hcond]
    rfl
  have hkeys : ([key].erase key : List String) = [] := by simp
  have hnb : 0 + ((key.length : Int) + (lru.Value.len v : Int))
      - lru.entrySize { key := key, value := v } = 0 := by
    unfold lru.entrySize
    show 0 + ((key.length : Int) + (lru.Value.len v : Int))
        - ((key.length : Int) + (lru.Value.len v : Int)) = 0
    omega
  rw [hadd, hkeys, hnb]
  exact ⟨rfl, rfl, rfl, rfl, rfl⟩

/-- Witness for claim C10: capacity 3, entry "hello"/"world" of size 10 —
the add evicts the entry itself and the follow-up Get misses. -/
theorem claim_C10_witness :
    (0 : Int) < 3 ∧
    (3 : Int) < ("hello".length : Int) + (lru.Value.len "world" : Int) ∧
    ((lru.New String 3).add "hello" "world").2
      = [{ key := "hello", value := "world" }] ∧
    ((lru.New String 3).add "hello" "world").1.ll = [] ∧
    (((lru.New String 3).add "hello" "world").1.get "hello").1 = none := by
  have h := claim_C10_oversized_add_self_evicts (V := String) 3 "hello" "world"
    (by decide) (by decide)
  exact ⟨by decide, by decide, h.1, h.2.1, h.2.2.2.2⟩

theorem lruAdd_fresh_no_evict {V : Type} [lru.Value V] (cb : Int) (key : String) (v : V)
    (hcap : ¬ (cb ≠ 0 ∧ cb < 0 + ((key.length : Int) + (lru.Value.len v : Int)))) :
    (lru.New V cb).add key v
      = ({ maxBytes := cb,
           nbytes := 0 + ((key.length : Int) + (lru.Value.len v : Int)),
           ll := [{ key := key, value := v }], keys := [key] }, []) := by
  show lru.evictLoop 1
      { maxBytes := cb,
        nbytes := 0 + ((key.length : Int) + (lru.Value.len v : Int)),
        ll := [{ key := key, value := v }], keys := [key] } [] = _
  unfold lru.evictLoop
  rw [if_neg hcap]
  rfl

theorem lruGet_singleton_hit {V : Type} (cb nb : Int) (key : String) (v : V) :
    (lru.Cache.mk cb nb [{ key := key, value := v }] [key]).get key
      = (some v, lru.Cache.mk cb nb [{ key := key, value := v }] [key]) := by
  simp [lru.Cache.get, lru.extract]

/-- Claim C5: for the empty-string key, Group.Get returns the validation
error before any lookup: the group (and so its local store) is returned
untouched and the loader, the peer transport, and the deduplicator were
never entered (all observable call counters are zero). -/
theorem claim_C5_empty_key_rejected_no_side_effect (g : geecache.Group) :
    g.Get "" = (Except.error "key is required", g,
      { loaderCalls := 0, peerCalls := 0, doCalls := 0 }) := rfl

/-- Claim C4: when the peer picker nominates a remote peer and the remote
fetch succeeds, Group.Get returns the remote bytes but the group — local
eviction store included — is unchanged, and the local loader is never
invoked (loader counter 0, exactly one peer fetch). -/
theorem claim_C4_remote_success_not_cached (g : geecache.Group)
    (pick : geecache.PeerPicker) (peer : geecache.PeerGetter) (key bytes : String)
    (hkey : key ≠ "")
    (hpeers : g.peers = some pick)
    (hpick : pick key = some peer)
    (hpeer : peer g.name key = Except.ok bytes)
    (hmiss : g.mainCache.keys.contains key = false) :
    g.Get key = (Except.ok { b := bytes }, g,
      { loaderCalls := 0, peerCalls := 1, doCalls := 1 }) := by
  unfold geecache.Group.Get geecache.Group.load geecache.doSequential
    geecache.Group.loadBody geecache.Group.getFromPeer lru.Cache.get
  rw [if_neg hkey]
  simp only [hmiss, Bool.false_eq_true, if_false, hpeers, hpick, hpeer]
  rw [← hpeers]

/-- Witness for claim C4: a concrete group with an always-succeeding peer;
the remote value is returned and nothing is cached locally. -/
theorem claim_C4_witness :
    (geecache.Group.Get
        { name := "g", getter := fun _ => Except.ok "local",
          mainCache := lru.New geecache.ByteView 100,
          peers := some (fun _ => some (fun _ _ => Except.ok "remote")) } "k")
      = (Except.ok { b := "remote" },
         { name := "g", getter := fun _ => Except.ok "local",
           mainCache := lru.New geecache.ByteView 100,
           peers := some (fun _ => some (fun _ _ => Except.ok "remote")) },
         { loaderCalls := 0, peerCalls := 1, doCalls := 1 }) :=
  claim_C4_remote_success_not_cached _ _ _ "k" "remote" (by decide) rfl rfl rfl rfl

/-- Claim C9: NewGroup with an already-registered name silently replaces the
registry entry: a subsequent GetGroup returns the group created second (the
one holding the second loader and a fresh store of the second capacity), not
the original. -/
theorem claim_C9_newgroup_replaces_registry_entry (reg : geecache.Registry)
    (name : String) (cb1 cb2 : Int) (get1 get2 : String → Except String String) :
    geecache.GetGroup
        (geecache.NewGroup (geecache.NewGroup reg name cb1 get1).1 name cb2 get2).1 name
      = some (geecache.NewGroup (geecache.NewGroup reg name cb1 get1).1 name cb2 get2).2
    ∧ (geecache.NewGroup (geecache.NewGroup reg name cb1 get1).1 name cb2 get2).2.getter
        = get2
    ∧ (geecache.NewGroup (geecache.NewGroup reg name cb1 get1).1 name cb2 get2).2.mainCache
        = lru.New geecache.ByteView cb2 := by
  refine ⟨?_, rfl, rfl⟩
  unfold geecache.NewGroup geecache.GetGroup
  simp

theorem groupGet_fresh_miss (g : geecache.Group) (cb : Int) (key : String)
    (hkey : key ≠ "") (hmain : g.mainCache = lru.New geecache.ByteView cb) :
    g.Get key = g.load key := by
  unfold geecache.Group.Get
  rw [if_neg hkey, hmain]
  show geecache.Group.load { g with mainCache := lru.New geecache.ByteView cb } key = _
  rw [← hmain]

theorem groupLoad_peer_fail (g : geecache.Group) (pick : geecache.PeerPicker)
    (peer : geecache.PeerGetter) (key err : String)
    (hpeers : g.peers = some pick) (hpick : pick key = some peer)
    (hpeer : peer g.name key = Except.error err) :
    g.load key = ((g.getLocally key).1, (g.getLocally key).2,
      { loaderCalls := 1, peerCalls := 1, doCalls := 1 }) := by
  unfold geecache.Group.load geecache.doSequential geecache.Group.loadBody
    geecache.Group.getFromPeer
  simp only [hpeers, hpick, hpeer]

theorem groupGetLocally_ok (g : geecache.Group) (key bytes : String)
    (hload : g.getter key = Except.ok bytes) :
    g.getLocally key
      = (Except.ok { b := bytes }, g.populateCache key { b := bytes }) := by
  unfold geecache.Group.getLocally
  simp only [hload]
  rfl

theorem groupGet_singleton_hit (g : geecache.Group) (cb nb : Int) (key : String)
    (v : geecache.ByteView) (hkey : key ≠ "")
    (hmain : g.mainCache = lru.Cache.mk cb nb [{ key := key, value := v }] [key]) :
    g.Get key = (Except.ok v, g,
      { loaderCalls := 0, peerCalls := 0, doCalls := 0 }) := by
  unfold geecache.Group.Get
  rw [if_neg hkey, hmain, lruGet_singleton_hit]
  rw [← hmain]

/-- Claim C3: with a peer picker that nominates a remote peer whose fetch
fails, Group.Get on a fresh group still succeeds by invoking the local
loader exactly once and caching the result, so a second Get for the same
key is a local hit that touches neither the loader nor the peer. The
capacity hypothesis states the configured store can retain the entry
(unbounded, or large enough), as in the spec scenario. -/
theorem claim_C3_peer_failure_falls_back_to_loader (g : geecache.Group)
    (cb : Int) (pick : geecache.PeerPicker) (peer : geecache.PeerGetter)
    (key bytes err : String)
    (hkey : key ≠ "")
    (hpeers : g.peers = some pick)
    (hpick : pick key = some peer)
    (hpeer : peer g.name key = Except.error err)
    (hload : g.getter key = Except.ok bytes)
    (hmain : g.mainCache = lru.New geecache.ByteView cb)
    (hcap : cb = 0 ∨ (0 < cb ∧ (key.length : Int) + (bytes.length : Int) ≤ cb)) :
    (g.Get key).1 = Except.ok { b := bytes } ∧
    (g.Get key).2.2.loaderCalls = 1 ∧
    ((g.Get key).2.1.Get key).1 = Except.ok { b := bytes } ∧
    ((g.Get key).2.1.Get key).2.2
      = { loaderCalls := 0, peerCalls := 0, doCalls := 0 } := by
  have hcap2 : ¬ (cb ≠ 0 ∧ cb < 0 + ((key.length : Int) +
      (lru.Value.len ({ b := bytes } : geecache.ByteView) : Int))) := by
    have hsize : (lru.Value.len ({ b := bytes } : geecache.ByteView) : Int)
        = (bytes.length : Int) := rfl
    rw [hsize]
    rcases hcap with h0 | hc
    · intro hcon
      exact hcon.1 h0
    · intro hcon
      rcases hc with ⟨hpos, hle⟩
      omega
  have hadd := lruAdd_fresh_no_evict cb key ({ b := bytes } : geecache.ByteView) hcap2
  have hG1 : g.Get key = (Except.ok { b := bytes },
      { g with mainCache := ((lru.New geecache.ByteView cb).add key { b := bytes }).1 },
      { loaderCalls := 1, peerCalls := 1, doCalls := 1 }) := by
    rw [groupGet_fresh_miss g cb key hkey hmain,
        groupLoad_peer_fail g pick peer key err hpeers hpick hpeer,
        groupGetLocally_ok g key bytes hload]
    unfold geecache.Group.populateCache
    rw [hmain]
  have hmain2 : ({ g with mainCache :=
        ((lru.New geecache.ByteView cb).add key { b := bytes }).1 } :
          geecache.Group).mainCache
      = lru.Cache.mk cb
          (0 + ((key.length : Int) +
            (lru.Value.len ({ b := bytes } : geecache.ByteView) : Int)))
          [{ key := key, value := { b := bytes } }] [key] := by
    show ((lru.New geecache.ByteView cb).add key { b := bytes }).1 = _
    rw [hadd]
  have hG2 := groupGet_singleton_hit _ cb _ key { b := bytes } hkey hmain2
  rw [hG1]
  refine ⟨rfl, rfl, ?_, ?_⟩
  · show (geecache.Group.Get
        { g with mainCache :=
            ((lru.New geecache.ByteView cb).add key { b := bytes }).1 } key).1
      = Except.ok { b := bytes }
    rw [hG2]
  · show (geecache.Group.Get
        { g with mainCache :=
            ((lru.New geecache.ByteView cb).add key { b := bytes }).1 } key).2.2
      = { loaderCalls := 0, peerCalls := 0, doCalls := 0 }
    rw [hG2]

/-- Witness for claim C3: a concrete fresh unbounded group whose peer always
fails; the first Get loads locally, the second is a pure local hit. -/
theorem claim_C3_witness :
    (geecache.Group.Get
        { name := "scores", getter := fun _ => Except.ok "val",
          mainCache := lru.New geecache.ByteView 0,
          peers := some (fun _ => some (fun _ _ => Except.error "down")) }
        "Tom").1 = Except.ok { b := "val" } ∧
    (geecache.Group.Get
        { name := "scores", getter := fun _ => Except.ok "val",
          mainCache := lru.New geecache.ByteView 0,
          peers := some (fun _ => some (fun _ _ => Except.error "down")) }
        "Tom").2.2.loaderCalls = 1 ∧
    ((geecache.Group.Get
        { name := "scores", getter := fun _ => Except.ok "val",
          mainCache := lru.New geecache.ByteView 0,
          peers := some (fun _ => some (fun _ _ => Except.error "down")) }
        "Tom").2.1.Get "Tom").1 = Except.ok { b := "val" } ∧
    ((geecache.Group.Get
        { name := "scores", getter := fun _ => Except.ok "val",
          mainCache := lru.New geecache.ByteView 0,
          peers := some (fun _ => some (fun _ _ => Except.error "down")) }
        "Tom").2.1.Get "Tom").2.2
      = { loaderCalls := 0, peerCalls := 0, doCalls := 0 } :=
  claim_C3_peer_failure_falls_back_to_loader
    { name := "scores", getter := fun _ => Except.ok "val",
      mainCache := lru.New geecache.ByteView 0,
      peers := some (fun _ => some (fun _ _ => Except.error "down")) }
    0 (fun _ => some (fun _ _ => Except.error "down"))
    (fun _ _ => Except.error "down")
    "Tom" "val" "down" (by decide) rfl rfl rfl rfl rfl (Or.inl rfl)

/-- Claim C6 evaluation: an inbound request for an unregistered group "foo"
is answered with status 404 and body "no suck group: foo" — the source's
literal (with its typo), which differs from the documented body
"no such group: foo". -/
theorem claim_C6_unknown_group_body_typo :
    geecache.ServeHTTP (fun _ => none) geecache.defaultBasePath "/_geecache/foo/bar"
      = geecache.HTTPResult.response 404 none ("no suck group: " ++ "foo") ∧
    geecache.ServeHTTP (fun _ => none) geecache.defaultBasePath "/_geecache/foo/bar"
      ≠ geecache.HTTPResult.response 404 none ("no such group: " ++ "foo") := by
  constructor
  · decide
  · decide

theorem sflight_run_arrivals {α : Type} (cs : List Nat) :
    ∀ (s : sflight.State α) (ws : List Nat), s.inflight = some ws →
      sflight.run s (cs.map sflight.Event.arrive)
        = { s with inflight := some (cs.reverse ++ ws) } := by
  induction cs with
  | nil =>
    intro s ws h
    show s = _
    rw [List.reverse_nil, List.nil_append, ← h]
  | cons c rest ih =>
    intro s ws h
    simp only [List.map_cons, sflight.run, List.foldl_cons]
    have hstep : sflight.step s (sflight.Event.arrive c)
        = { s with inflight := some (c :: ws) } := by
      unfold sflight.step
      rw [h]
    rw [hstep]
    have hrest := ih { s with inflight := some (c :: ws) } (c :: ws) rfl
    unfold sflight.run at hrest
    rw [hrest]
    simp [List.append_assoc]

/-- Claim C8 (deduplicator model): when one caller starts a load for a key
and any number of further callers arrive while that load is in flight, the
load function is executed exactly once, every caller is delivered the one
shared result, the in-flight record is gone on completion, and a caller
arriving after completion starts a fresh (second) execution. -/
theorem claim_C8_dedup_single_execution {α : Type} (c0 : Nat) (cs : List Nat) (r : α) :
    sflight.run (sflight.init α)
        ((c0 :: cs).map sflight.Event.arrive ++ [sflight.Event.complete r])
      = { inflight := none, execs := 1,
          delivered := (cs.reverse ++ [c0]).map (fun c => (c, r)) } ∧
    (∀ c, c ∈ c0 :: cs →
      (c, r) ∈ (sflight.run (sflight.init α)
        ((c0 :: cs).map sflight.Event.arrive
          ++ [sflight.Event.complete r])).delivered) ∧
    (∀ p, p ∈ (sflight.run (sflight.init α)
        ((c0 :: cs).map sflight.Event.arrive
          ++ [sflight.Event.complete r])).delivered → p.2 = r) ∧
    (sflight.step (sflight.run (sflight.init α)
        ((c0 :: cs).map sflight.Event.arrive ++ [sflight.Event.complete r]))
        (sflight.Event.arrive c0)).execs = 2 := by
  have h1 : sflight.run (sflight.init α) ((c0 :: cs).map sflight.Event.arrive)
      = { inflight := some (cs.reverse ++ [c0]), execs := 1, delivered := [] } := by
    simp only [List.map_cons, sflight.run, List.foldl_cons]
    have hstep : sflight.step (sflight.init α) (sflight.Event.arrive c0)
        = { inflight := some [c0], execs := 1, delivered := [] } := rfl
    rw [hstep]
    have harr := sflight_run_arrivals (α := α) cs
      { inflight := some [c0], execs := 1, delivered := [] } [c0] rfl
    unfold sflight.run at harr
    rw [harr]
  have hfull : sflight.run (sflight.init α)
      ((c0 :: cs).map sflight.Event.arrive ++ [sflight.Event.complete r])
      = { inflight := none, execs := 1,
          delivered := (cs.reverse ++ [c0]).map (fun c => (c, r)) } := by
    unfold sflight.run
    rw [List.foldl_append]
    show sflight.step (sflight.run (sflight.init α)
      ((c0 :: cs).map sflight.Event.arrive)) (sflight.Event.complete r) = _
    rw [h1]
    unfold sflight.step
    simp
  refine ⟨hfull, ?_, ?_, ?_⟩
  · intro c hc
    rw [hfull]
    simp only [List.mem_map]
    refine ⟨c, ?_, rfl⟩
    simp only [List.mem_append, List.mem_reverse, List.mem_singleton]
    simp only [List.mem_cons] at hc
    tauto
  · intro p hp
    rw [hfull] at hp
    simp only [List.mem_map] at hp
    obtain ⟨a, _, hpa⟩ := hp
    rw [← hpa]
  · rw [hfull]
    rfl

/-- Witness for claim C8: callers 1, 2, 3 racing on one key — caller 2's
pair is among the delivered results, delivered pairs carry the shared
result, and a post-completion arrival makes the execution count 2. -/
theorem claim_C8_witness :
    ((2 : Nat) ∈ ([1, 2, 3] : List Nat) ∧
      ((2 : Nat), "v") ∈ (sflight.run (sflight.init String)
        (([1, 2, 3] : List Nat).map sflight.Event.arrive
          ++ [sflight.Event.complete "v"])).delivered) ∧
    (sflight.step (sflight.run (sflight.init String)
        (([1, 2, 3] : List Nat).map sflight.Event.arrive
          ++ [sflight.Event.complete "v"]))
        (sflight.Event.arrive 1)).execs = 2 :=
  ⟨⟨by decide,
    (claim_C8_dedup_single_execution 1 [2, 3] "v").2.1 2 (by decide)⟩,
   (claim_C8_dedup_single_execution 1 [2, 3] "v").2.2.2⟩
